import Mathlib

/-!
Shallow embedding of the `java-runtimes` Rust library (files `src/lib.rs`,
`src/detector.rs`, `src/error.rs`) and proofs about its specification.

Modelling conventions:
* Rust `PathBuf` is `FPath`: an absoluteness flag plus a list of components.
* The filesystem is a finite tree `FsNode`; there are no symlinks in the
  model, so `Path::canonicalize` succeeds exactly on existing paths and
  returns the resolved absolute path.
* Spawning a candidate process (`Command::new(path).arg("-version").output()`)
  is an oracle `runJava : FPath → Option (Bool × String)`: `none` models a
  spawn failure, `some (status, stderr)` models the captured exit status and
  the lossily decoded diagnostic stream.
* The regex crate's leftmost-first (Perl-like) match semantics for the fixed
  pattern `.*"((\d+)\.(\d+)([\d._]+)?)".*` are embedded directly as a
  backtracking scan: `.` does not match a newline, the leading greedy `.*`
  prefers the longest prefix, hence the latest feasible opening quote on the
  earliest line that contains a full match.  `\d` is modelled as an ASCII
  digit (non-ASCII Unicode digits are out of scope of every claim).
-/

namespace JavaRuntimes

/-- The regex character class `\d` (a decimal digit). -/
def isDigitC (c : Char) : Bool := c.isDigit

/-- The regex character class `[\d._]`. -/
def isVerC (c : Char) : Bool := c.isDigit || c == '.' || c == '_'

/-- Greedy parse of `(\d+)\.(\d+)([\d._]+)?` followed by a closing `"`,
at the current position (just after an opening quote).  Returns the text of
capture group 1 together with the remaining input after the closing quote.
Greediness is deterministic here: each sub-expression takes the maximal run,
and no backtracking inside the token can move the closing-quote position. -/
def parseTok (cs : List Char) : Option (List Char × List Char) :=
  if (cs.takeWhile isDigitC).isEmpty then none
  else
    match cs.dropWhile isDigitC with
    | [] => none
    | c0 :: r2 =>
      if c0 = '.' then
        if (r2.takeWhile isDigitC).isEmpty then none
        else
          match (r2.dropWhile isDigitC).dropWhile isVerC with
          | [] => none
          | c1 :: r5 =>
            if c1 = '"' then
              some (cs.takeWhile isDigitC ++
                '.' :: (r2.takeWhile isDigitC ++
                  (r2.dropWhile isDigitC).takeWhile isVerC), r5)
            else none
      else none

/-- Scan the current line (the part of the input before the next `'\n'`) for
an opening `"` followed by a version token and a closing `"`.  Later opening
positions are preferred, which is exactly what the greedy leading `.*` of the
pattern selects under leftmost-first semantics. -/
def findInLine : List Char → Option (List Char)
  | [] => none
  | c :: rest =>
    if c = '\n' then none
    else
      match findInLine rest with
      | some t => some t
      | none => if c = '"' then (parseTok rest).map Prod.fst else none

/-- Holds on every character except a newline. -/
def notNL (c : Char) : Bool := c != '\n'

/-- Line-by-line scan, fuelled so that the recursion is structural (the fuel
is always at least the length of the input, which is sufficient because each
step drops at least the current line's leading characters and its newline). -/
def findTokF : Nat → List Char → Option (List Char)
  | 0, _ => none
  | fuel + 1, cs =>
    match findInLine cs with
    | some t => some t
    | none =>
      match cs.dropWhile notNL with
      | [] => none
      | _ :: rest => findTokF fuel rest

/-- The first (leftmost-first) capture of group 1 of the version pattern. -/
def findTok (cs : List Char) : Option (List Char) := findTokF cs.length cs

/-- Embedding of the wrapping step of `extract_version`: the defensive wrapping of the whole
input in one extra pair of quotes performed by `extract_version`. -/
def wrapChars (s : String) : List Char := '"' :: (s.data ++ ['"'])

/-- Rust `PathBuf`: an absoluteness flag (whether the path has a root) and
the list of normal components. -/
structure FPath where
  abs : Bool
  comps : List String
deriving DecidableEq

/-- Rust `Path::join`: joining with an absolute path replaces the whole path. -/
def FPath.join (p q : FPath) : FPath :=
  if q.abs then q else ⟨p.abs, p.comps ++ q.comps⟩

/-- Embedding of `ErrorKind` from `src/error.rs`.  `InvalidWorkDir` is referenced by
`JavaRuntime::to_absolute` in `src/lib.rs` (its declaration is missing from
the `error.rs` snapshot; the spec lists it as `InvalidWorkingDirectory`).
The payloads carrying OS errors are dropped. -/
inductive ErrKind where
  | HomeDirNotFound : ErrKind
  | NoJavaVersionStringFound : ErrKind
  | SemverParseFailed : ErrKind
  | LooksNotLikeJavaExecutableFile : FPath → ErrKind
  | JavaOutputFailed : ErrKind
  | GettingJavaVersionFailed : FPath → ErrKind
  | InvalidWorkDir : ErrKind
deriving DecidableEq

/-- Embedding of `JavaRuntime::extract_version`: wrap the whole input in quotes, run the
pattern `.*"((\d+)\.(\d+)([\d._]+)?)".*`, return capture group 1. -/
def extract_version (s : String) : Except ErrKind String :=
  match findTok (wrapChars s) with
  | some t => .ok (String.mk t)
  | none => .error .NoJavaVersionStringFound

/-- The `JavaRuntime` record (`src/lib.rs`). -/
structure JavaRuntime where
  os : String
  path : FPath
  version_string : String
deriving DecidableEq

/-- Embedding of `JavaRuntime::new`: manual construction; validates the version text by
extracting a version token from it. -/
def JavaRuntime.new (os : String) (path : FPath) (version_string : String) :
    Except ErrKind JavaRuntime :=
  match extract_version version_string with
  | .ok v => .ok ⟨os, path, v⟩
  | .error e => .error e

/-- Embedding of `JavaRuntime::to_absolute`.  The current working directory is an oracle:
`none` models `env::current_dir()` failing.  Note the source joins the cwd
onto the record's path (`self.path.join(cwd)`), not the other way round. -/
def JavaRuntime.to_absolute (cwd : Option FPath) (rt : JavaRuntime) :
    Except ErrKind JavaRuntime :=
  match cwd with
  | none => .error .InvalidWorkDir
  | some c => JavaRuntime.new rt.os (rt.path.join c) rt.version_string

/-- Embedding of `PartialEq for JavaRuntime`: equality on the `(os, path)` pair only. -/
def jeq (a b : JavaRuntime) : Bool :=
  (a.os == b.os) && (decide (a.path = b.path))

/-- A filesystem tree: a regular file, or a directory with named entries.
Symbolic links are not modelled (`follow_links(false)` never descends into
them, and no claim mentions them). -/
inductive FsNode where
  | file : FsNode
  | dir (entries : List (String × FsNode)) : FsNode

/-- First entry with the given name in a directory listing. -/
def lookupEntry (es : List (String × FsNode)) (n : String) : Option FsNode :=
  match es with
  | [] => none
  | (m, t) :: rest => if m = n then some t else lookupEntry rest n

/-- Follow a component list down the tree. -/
def lookupNode : FsNode → List String → Option FsNode
  | t, [] => some t
  | .file, _ :: _ => none
  | .dir es, n :: rest =>
    match lookupEntry es n with
    | some c => lookupNode c rest
    | none => none

/-- The host environment: filesystem root, current directory, the platform's
`EXE_SUFFIX` and `env::consts::OS`, and the subprocess oracle. -/
structure Sys where
  root : FsNode
  cwd : List String
  exeSuffix : String
  curOS : String
  runJava : FPath → Option (Bool × String)

/-- Resolve a path against the current directory (relative paths in Rust are
interpreted relative to the process's working directory). -/
def resolve (sys : Sys) (p : FPath) : List String :=
  if p.abs then p.comps else sys.cwd ++ p.comps

/-- Rust `Path::is_file`. -/
def is_file (sys : Sys) (p : FPath) : Bool :=
  match lookupNode sys.root (resolve sys p) with
  | some .file => true
  | _ => false

/-- Rust `Path::canonicalize`: succeeds exactly on existing paths (the model has
no symlinks) and returns the resolved absolute path. -/
def canonicalize (sys : Sys) (p : FPath) : Option FPath :=
  match lookupNode sys.root (resolve sys p) with
  | some _ => some ⟨true, resolve sys p⟩
  | none => none

/-- Embedding of `JavaRuntime::get_java_executable_name`: `"java"` plus `EXE_SUFFIX`. -/
def javaExeName (sys : Sys) : String := "java" ++ sys.exeSuffix

/-- Embedding of `JavaRuntime::looks_like_java_executable_file`: the path must be an
existing regular file whose canonical form is named `java(.exe)` and sits in
a directory named exactly `bin`. -/
def looks_like_java_executable_file (sys : Sys) (p : FPath) : Bool :=
  if !(is_file sys p) then false
  else
    match canonicalize sys p with
    | none => false
    | some q =>
      match q.comps.getLast? with
      | some name =>
        if name = javaExeName sys then
          match q.comps.dropLast.getLast? with
          | some dirName => dirName = "bin"
          | none => false
        else false
      | none => false

/-- Embedding of `JavaRuntime::update`: returns the record state after the call together
with the error, if any.  Mirrors the Rust control flow: the only mutation of
`self` is the assignment of `version_string` after a fully successful probe,
so on every error path the returned state is the argument itself. -/
def update (sys : Sys) (rt : JavaRuntime) : JavaRuntime × Option ErrKind :=
  if !looks_like_java_executable_file sys rt.path then
    (rt, some (.LooksNotLikeJavaExecutableFile rt.path))
  else
    match sys.runJava rt.path with
    | none => (rt, some .JavaOutputFailed)
    | some (status, stderr) =>
      if status then
        match extract_version stderr with
        | .ok v => ({ rt with version_string := v }, none)
        | .error e => (rt, some e)
      else (rt, some (.GettingJavaVersionFailed rt.path))

/-- Embedding of `JavaRuntime::from_executable` (called `from_java_exe` at its use site in
`detector.rs`): build a record with the host OS tag and an empty version,
then `update` it. -/
def from_executable (sys : Sys) (p : FPath) : Except ErrKind JavaRuntime :=
  match update sys ⟨sys.curOS, p, ""⟩ with
  | (rt, none) => .ok rt
  | (_, some e) => .error e

/-- Embedding of `detector::detect_java_exe`. -/
def detect_java_exe (sys : Sys) (p : FPath) : Option JavaRuntime :=
  match from_executable sys p with
  | .ok rt => some rt
  | .error _ => none

/-- Embedding of `detector::detect_java_bin_dir`: probe `bin_dir.join("java"(.exe))`. -/
def detect_java_bin_dir (sys : Sys) (p : FPath) : Option JavaRuntime :=
  detect_java_exe sys ⟨p.abs, p.comps ++ [javaExeName sys]⟩

/-- Relative paths of the entries yielded by a `WalkDir` rooted at a node,
with `max_depth d` (entries at depth at most `d`; the root itself is depth 0;
only directories are descended into). -/
def walkRelD : Nat → FsNode → List (List String)
  | 0, _ => [[]]
  | _ + 1, .file => [[]]
  | d + 1, .dir es =>
    [] :: es.flatMap (fun e => (walkRelD d e.2).map (fun rel => e.1 :: rel))

/-- The entry paths produced by `WalkDir::new(p).max_depth(d)` after
`filter_map(Result::ok)`: a walk of a nonexistent root yields a single `Err`
entry, hence the empty list. -/
def walkEntries (sys : Sys) (p : FPath) (d : Nat) : List FPath :=
  match lookupNode sys.root (resolve sys p) with
  | none => []
  | some t => (walkRelD d t).map (fun rel => ⟨p.abs, p.comps ++ rel⟩)

/-- Embedding of `detector::gather_java`: if the root is a regular file, try it through
`detect_java_bin_dir` and return early on success; otherwise (and also when
that probe fails) walk the root and feed every visited entry to
`detect_java_bin_dir`.  Returns the new list and the number of additions. -/
def gather_java (sys : Sys) (runtimes : List JavaRuntime) (p : FPath)
    (max_depth : Nat) : List JavaRuntime × Nat :=
  match (if is_file sys p then detect_java_bin_dir sys p else none) with
  | some rt => (runtimes ++ [rt], 1)
  | none =>
    let found := (walkEntries sys p max_depth).filterMap (detect_java_bin_dir sys)
    (runtimes ++ found, found.length)

/-- Embedding of `detector::detect_java`. -/
def detect_java (sys : Sys) (p : FPath) (max_depth : Nat) : List JavaRuntime :=
  (gather_java sys [] p max_depth).1

/-- Embedding of `detector::detect_java_in_paths`. -/
def detect_java_in_paths (sys : Sys) (ps : List FPath) (max_depth : Nat) :
    List JavaRuntime :=
  ps.foldl (fun acc p => (gather_java sys acc p max_depth).1) []

/-- Embedding of `detector::gather_java_in_paths`. -/
def gather_java_in_paths (sys : Sys) (runtimes : List JavaRuntime)
    (ps : List FPath) (max_depth : Nat) : List JavaRuntime × Nat :=
  ps.foldl (fun acc p =>
    let r := gather_java sys acc.1 p max_depth
    (r.1, acc.2 + r.2)) (runtimes, 0)

/-- Embedding of the split `env_path.split` with the pattern given as the raw string colon-pipe-semicolon in `detect_java_in_environments`: Rust's
`str::split` with a `&str` pattern splits on occurrences of the literal
three-character string `":|;"`, not on `':'` or `';'`. -/
def splitPathVar : List Char → List Char → List (List Char)
  | [], acc => [acc.reverse]
  | ':' :: '|' :: ';' :: rest, acc => acc.reverse :: splitPathVar rest []
  | c :: rest, acc => splitPathVar rest (c :: acc)

/-- Split a string on `'/'` (conversion of an environment string to a path,
Unix-style). -/
def splitSlash : List Char → List Char → List (List Char)
  | [], acc => [acc.reverse]
  | '/' :: rest, acc => acc.reverse :: splitSlash rest []
  | c :: rest, acc => splitSlash rest (c :: acc)

/-- Interpret an environment-variable string as a path. -/
def parsePath (s : String) : FPath :=
  ⟨(match s.data with | '/' :: _ => true | _ => false),
   ((splitSlash s.data []).filter (fun c => !c.isEmpty)).map String.mk⟩

/-- Embedding of `detector::detect_java_in_environments`: gather from `JAVA_HOME`,
`JAVA_ROOT`, `JDK_HOME`, `JRE_HOME` (each at depth 1), then from the entries
of `PATH` split with the literal pattern `":|;"`, each at depth 1.  The
environment is an oracle from variable names to values. -/
def detect_java_in_environments (sys : Sys) (envv : String → Option String) :
    List JavaRuntime :=
  let step := fun (rts : List JavaRuntime) (var : String) =>
    match envv var with
    | some v => (gather_java sys rts (parsePath v) 1).1
    | none => rts
  let rts := step (step (step (step [] "JAVA_HOME") "JAVA_ROOT") "JDK_HOME") "JRE_HOME"
  match envv "PATH" with
  | some v =>
    (gather_java_in_paths sys rts
      ((splitPathVar v.data []).map (fun cs => parsePath (String.mk cs))) 1).1
  | none => rts

/-! ### Spec-side description of the version grammar (§4.3)

These definitions follow the specification's words, independently of the
scanning algorithm: a version token is `MAJOR.MINOR` followed by any
characters from `{digit, underscore, period}`, and a text contains such a
token when it occurs somewhere enclosed in double quotes. -/

/-- Version shape: `m` matches `(\d+)\.(\d+)([\d._]*)` in full. -/
def versionShape (m : List Char) : Prop :=
  ∃ a b c, m = a ++ '.' :: (b ++ c) ∧ a ≠ [] ∧ b ≠ [] ∧
    a.all isDigitC = true ∧ b.all isDigitC = true ∧ c.all isVerC = true

/-- Token occurrence: `m` occurs in `cs` as a double-quoted version token. -/
def quotedTokenIn (cs m : List Char) : Prop :=
  ∃ p q, cs = p ++ '"' :: (m ++ '"' :: q) ∧ versionShape m

/-- Containment: `cs` contains some double-quoted version token. -/
def containsToken (cs : List Char) : Prop := ∃ m, quotedTokenIn cs m

/-! ### Concrete environments used by witnesses and evaluations -/

/-- An environment with an empty filesystem root. -/
def sysEmpty : Sys :=
  { root := .dir []
    cwd := []
    exeSuffix := ""
    curOS := "linux"
    runJava := fun _ => none }

/-- A java launcher at `/a/bin/java`; invoking it succeeds and reports a
version.  All other spawns fail. -/
def sysC1 : Sys :=
  { root := .dir [("a", .dir [("bin", .dir [("java", .file)])])]
    cwd := []
    exeSuffix := ""
    curOS := "linux"
    runJava := fun p =>
      if p = ⟨true, ["a", "bin", "java"]⟩ then
        some (true, "java version \"17.0.4.1\" 2022-08-18 LTS")
      else none }

/-- A java install at `/jdk/bin/java`, probe-ok. -/
def sysC9 : Sys :=
  { root := .dir [("jdk", .dir [("bin", .dir [("java", .file)])])]
    cwd := []
    exeSuffix := ""
    curOS := "linux"
    runJava := fun p =>
      if p = ⟨true, ["jdk", "bin", "java"]⟩ then
        some (true, "openjdk version \"21.0.3\" 2024-04-16")
      else none }

/-- An environment where only `PATH` is set, to a colon-separated list whose
first entry is the java install's `bin` directory. -/
def envC9 : String → Option String :=
  fun v => if v = "PATH" then some "/jdk/bin:/b" else none

/-- A directory root whose only qualifying java executable file sits at
depth 2 (`/bin/java`); its probe succeeds. -/
def sysC2 : Sys :=
  { root := .dir [("bin", .dir [("java", .file)])]
    cwd := []
    exeSuffix := ""
    curOS := "linux"
    runJava := fun p =>
      if p = ⟨true, ["bin", "java"]⟩ then
        some (true, "java version \"1.8.0_333\"")
      else none }

/-! ### List helpers -/

theorem takeWhile_append_all {p : Char → Bool} {l z : List Char}
    (h : l.all p = true) : (l ++ z).takeWhile p = l ++ z.takeWhile p := by
  induction l with
  | nil => simp
  | cons x xs ih =>
    simp only [List.all_cons, Bool.and_eq_true] at h
    simp [List.takeWhile_cons_of_pos h.1, ih h.2]

theorem dropWhile_append_all {p : Char → Bool} {l z : List Char}
    (h : l.all p = true) : (l ++ z).dropWhile p = z.dropWhile p := by
  induction l with
  | nil => simp
  | cons x xs ih =>
    simp only [List.all_cons, Bool.and_eq_true] at h
    simp [List.dropWhile_cons_of_pos h.1, ih h.2]

theorem takeWhile_append_cons_neg {p : Char → Bool} {l q : List Char}
    {x : Char} (hx : p x = false) :
    (l ++ x :: q).takeWhile p = l.takeWhile p := by
  induction l with
  | nil => simp [List.takeWhile_cons_of_neg, hx]
  | cons y ys ih =>
    by_cases hy : p y
    · simp [List.takeWhile_cons_of_pos hy, ih]
    · simp [List.takeWhile_cons_of_neg hy]

theorem dropWhile_append_cons_neg {p : Char → Bool} {l q : List Char}
    {x : Char} (hx : p x = false) :
    (l ++ x :: q).dropWhile p = l.dropWhile p ++ x :: q := by
  induction l with
  | nil => simp [List.dropWhile_cons_of_neg, hx]
  | cons y ys ih =>
    by_cases hy : p y
    · simp [List.dropWhile_cons_of_pos hy, ih]
    · simp [List.dropWhile_cons_of_neg hy]

theorem all_takeWhile (p : Char → Bool) (l : List Char) :
    (l.takeWhile p).all p = true := by
  induction l with
  | nil => simp
  | cons x xs ih =>
    by_cases hx : p x
    · simp [List.takeWhile_cons_of_pos hx, hx, ih]
    · simp [List.takeWhile_cons_of_neg hx]

theorem all_dropWhile_of_all {p q : Char → Bool} {l : List Char}
    (h : l.all p = true) : (l.dropWhile q).all p = true := by
  induction l with
  | nil => simp
  | cons x xs ih =>
    simp only [List.all_cons, Bool.and_eq_true] at h
    by_cases hx : q x
    · simp [List.dropWhile_cons_of_pos hx, ih h.2]
    · simpa [List.dropWhile_cons_of_neg hx, h.1] using h.2

theorem takeWhile_eq_self_of_all {p : Char → Bool} {l : List Char}
    (h : l.all p = true) : l.takeWhile p = l := by
  induction l with
  | nil => simp
  | cons x xs ih =>
    simp only [List.all_cons, Bool.and_eq_true] at h
    simp [List.takeWhile_cons_of_pos h.1, ih h.2]

/-! ### Correctness of the token parser -/

/-- Soundness of `parseTok`: a successful parse decomposes the input as the
token, the closing quote and the rest, and the token has the version shape. -/
theorem parseTok_sound {cs t r : List Char} (h : parseTok cs = some (t, r)) :
    cs = t ++ '"' :: r ∧ versionShape t := by
  unfold parseTok at h
  split at h
  · exact absurd h (by simp)
  rename_i h1
  split at h
  · exact absurd h (by simp)
  rename_i c0 r2 hdrop
  split at h
  case isFalse => exact absurd h (by simp)
  rename_i hc0
  subst hc0
  split at h
  · exact absurd h (by simp)
  rename_i h2
  split at h
  · exact absurd h (by simp)
  rename_i c1 r5 hrest
  split at h
  case isFalse => exact absurd h (by simp)
  rename_i hc1
  subst hc1
  simp only [Option.some.injEq, Prod.mk.injEq] at h
  obtain ⟨ht, hr⟩ := h
  subst hr
  constructor
  · have hcs : cs = cs.takeWhile isDigitC ++ '.' :: r2 := by
      conv_lhs => rw [← List.takeWhile_append_dropWhile (p := isDigitC) (l := cs)]
      rw [hdrop]
    have hr2 : r2 = r2.takeWhile isDigitC ++ r2.dropWhile isDigitC := by
      rw [List.takeWhile_append_dropWhile]
    have hr3e : r2.dropWhile isDigitC =
        (r2.dropWhile isDigitC).takeWhile isVerC ++ '"' :: r5 := by
      conv_lhs =>
        rw [← List.takeWhile_append_dropWhile (p := isVerC)
          (l := r2.dropWhile isDigitC)]
      rw [hrest]
    rw [← ht]
    conv_lhs => rw [hcs]
    conv_lhs => rw [hr2]
    conv_lhs => rw [hr3e]
    simp
  · refine ⟨cs.takeWhile isDigitC, r2.takeWhile isDigitC,
      (r2.dropWhile isDigitC).takeWhile isVerC, ht.symm, ?_, ?_, ?_, ?_, ?_⟩
    · simpa [List.isEmpty_iff] using h1
    · simpa [List.isEmpty_iff] using h2
    · exact all_takeWhile _ _
    · exact all_takeWhile _ _
    · exact all_takeWhile _ _



/-- Completeness of `parseTok`: positioned right after an opening quote on a
well-shaped token, the greedy parse consumes exactly that token. -/
theorem parseTok_complete {m q : List Char} (hm : versionShape m) :
    parseTok (m ++ '"' :: q) = some (m, q) := by
  obtain ⟨a, b, c, hmeq, ha, hb, hada, hbda, hcall⟩ := hm
  subst hmeq
  have hdot : isDigitC '.' = false := by decide
  have hqd : isDigitC '"' = false := by decide
  have hqv : isVerC '"' = false := by decide
  have hcs : ((a ++ '.' :: (b ++ c)) ++ '"' :: q : List Char)
      = a ++ '.' :: (b ++ (c ++ '"' :: q)) := by simp
  rw [hcs]
  have ha' : (a.isEmpty : Bool) = false := by
    cases a with
    | nil => exact absurd rfl ha
    | cons x xs => rfl
  have hbne : ((b ++ c.takeWhile isDigitC).isEmpty : Bool) = false := by
    cases b with
    | nil => exact absurd rfl hb
    | cons x xs => rfl
  have h1 : (a ++ '.' :: (b ++ (c ++ '"' :: q))).takeWhile isDigitC = a := by
    rw [takeWhile_append_all hada, List.takeWhile_cons_of_neg (by simp [hdot]),
      List.append_nil]
  have h2 : (a ++ '.' :: (b ++ (c ++ '"' :: q))).dropWhile isDigitC
      = '.' :: (b ++ (c ++ '"' :: q)) := by
    rw [dropWhile_append_all hada, List.dropWhile_cons_of_neg (by simp [hdot])]
  have h3 : (b ++ (c ++ '"' :: q)).takeWhile isDigitC = b ++ c.takeWhile isDigitC := by
    rw [takeWhile_append_all hbda, takeWhile_append_cons_neg hqd]
  have h4 : (b ++ (c ++ '"' :: q)).dropWhile isDigitC
      = c.dropWhile isDigitC ++ '"' :: q := by
    rw [dropWhile_append_all hbda, dropWhile_append_cons_neg hqd]
  have h5 : (c.dropWhile isDigitC ++ '"' :: q).dropWhile isVerC = '"' :: q := by
    rw [dropWhile_append_all (all_dropWhile_of_all hcall),
      List.dropWhile_cons_of_neg (by simp [hqv])]
  have h6 : (c.dropWhile isDigitC ++ '"' :: q).takeWhile isVerC
      = c.dropWhile isDigitC := by
    rw [takeWhile_append_cons_neg hqv,
      takeWhile_eq_self_of_all (all_dropWhile_of_all hcall)]
  unfold parseTok
  rw [h1, h2]
  simp only [ha', Bool.false_eq_true, if_false]
  rw [h3, h4, h5, h6, hbne]
  simp [List.takeWhile_append_dropWhile]

/-! ### Correctness of the line scan -/

/-- Splitting a list at the first occurrence of a member. -/
theorem mem_split_first {x : Char} : ∀ {l : List Char}, x ∈ l →
    ∃ l1 l2, l = l1 ++ x :: l2 ∧ x ∉ l1 := by
  intro l
  induction l with
  | nil => intro h; cases h
  | cons y ys ih =>
    intro h
    by_cases hxy : x = y
    · exact ⟨[], ys, by rw [hxy]; rfl, by simp⟩
    · have hmem : x ∈ ys := by
        cases h with
        | head => exact absurd rfl hxy
        | tail _ h' => exact h'
      obtain ⟨l1, l2, heq, hnot⟩ := ih hmem
      refine ⟨y :: l1, l2, by rw [heq]; rfl, ?_⟩
      intro hmem'
      cases hmem' with
      | head => exact hxy rfl
      | tail _ h' => exact hnot h'

/-- Soundness of `findInLine`: any returned token occurs quoted in the input. -/
theorem findInLine_sound : ∀ {cs t : List Char}, findInLine cs = some t →
    quotedTokenIn cs t := by
  intro cs
  induction cs with
  | nil => intro t h; simp [findInLine] at h
  | cons c rest ih =>
    intro t h
    unfold findInLine at h
    split at h
    · exact absurd h (by simp)
    rename_i hc
    split at h
    · rename_i u hfi
      injection h with h'
      subst h'
      obtain ⟨p, q, heq, hs⟩ := ih hfi
      exact ⟨c :: p, q, by rw [heq]; rfl, hs⟩
    · rename_i hfi
      split at h
      · rename_i hq
        subst hq
        cases hp : parseTok rest with
        | none => rw [hp] at h; exact absurd h (by simp)
        | some pr =>
          obtain ⟨tok, r⟩ := pr
          rw [hp] at h
          simp only [Option.map_some'] at h
          injection h with h'
          subst h'
          obtain ⟨hd, hs⟩ := parseTok_sound hp
          exact ⟨[], r, by rw [hd]; rfl, hs⟩
      · exact absurd h (by simp)

/-- Completeness of `findInLine`: a quoted token whose opening quote lies on
the first line is found. -/
theorem findInLine_complete {m q : List Char} (hm : versionShape m) :
    ∀ (p : List Char), '\n' ∉ p →
      (findInLine (p ++ '"' :: (m ++ '"' :: q))).isSome = true := by
  intro p
  induction p with
  | nil =>
    intro _
    rw [List.nil_append]
    unfold findInLine
    rw [if_neg (by decide)]
    cases hfi : findInLine (m ++ '"' :: q) with
    | some u => simp
    | none =>
      rw [parseTok_complete hm]
      simp
  | cons x xs ih =>
    intro hnx
    have hx : ¬(x = '\n') := fun e => hnx (by rw [e]; exact List.mem_cons_self _ _)
    have hxs : '\n' ∉ xs := fun hmem => hnx (List.mem_cons_of_mem _ hmem)
    rw [List.cons_append]
    unfold findInLine
    rw [if_neg hx]
    cases hfi : findInLine (xs ++ '"' :: (m ++ '"' :: q)) with
    | some u => simp
    | none =>
      have hs := ih hxs
      rw [hfi] at hs
      simp at hs

theorem all_notNL_of_not_mem {l : List Char} (h : '\n' ∉ l) : l.all notNL = true := by
  rw [List.all_eq_true]
  intro x hx
  have : ¬(x = '\n') := fun e => h (e ▸ hx)
  simp [notNL, this]

/-- Soundness of the fuelled scan. -/
theorem findTokF_sound : ∀ (fuel : Nat) {cs t : List Char},
    findTokF fuel cs = some t → quotedTokenIn cs t := by
  intro fuel
  induction fuel with
  | zero => intro cs t h; simp [findTokF] at h
  | succ n ih =>
    intro cs t h
    unfold findTokF at h
    split at h
    · rename_i u hfi
      injection h with h'
      subst h'
      exact findInLine_sound hfi
    · rename_i hfi
      split at h
      · exact absurd h (by simp)
      · rename_i x rest hdrop
        obtain ⟨p, q, heq, hs⟩ := ih h
        refine ⟨cs.takeWhile notNL ++ x :: p, q, ?_, hs⟩
        conv_lhs =>
          rw [← List.takeWhile_append_dropWhile (p := notNL) (l := cs), hdrop, heq]
        simp

/-- Completeness of the fuelled scan, given enough fuel. -/
theorem findTokF_complete : ∀ (fuel : Nat) {cs m : List Char},
    quotedTokenIn cs m → cs.length ≤ fuel → (findTokF fuel cs).isSome = true := by
  intro fuel
  induction fuel with
  | zero =>
    intro cs m hq hlen
    obtain ⟨p, q, heq, _⟩ := hq
    have hnil : cs = [] := List.length_eq_zero.mp (Nat.le_zero.mp hlen)
    subst hnil
    exact absurd heq.symm (by simp)
  | succ n ih =>
    intro cs m hq hlen
    unfold findTokF
    cases hfi : findInLine cs with
    | some u => simp
    | none =>
      obtain ⟨p, q, heq, hs⟩ := hq
      by_cases hnl : '\n' ∈ p
      · obtain ⟨p1, p2, hp, hp1⟩ := mem_split_first hnl
        have hdropcs : cs.dropWhile notNL = '\n' :: (p2 ++ '"' :: (m ++ '"' :: q)) := by
          rw [heq, hp]
          have hassoc : ((p1 ++ '\n' :: p2) ++ '"' :: (m ++ '"' :: q) : List Char)
              = p1 ++ '\n' :: (p2 ++ '"' :: (m ++ '"' :: q)) := by simp
          rw [hassoc, dropWhile_append_all (all_notNL_of_not_mem hp1),
            List.dropWhile_cons_of_neg (by simp [notNL])]
        rw [hdropcs]
        have hlen2 : (p2 ++ '"' :: (m ++ '"' :: q)).length ≤ n := by
          have hcl : cs.length = p1.length + 1 + (p2 ++ '"' :: (m ++ '"' :: q)).length := by
            rw [heq, hp]
            simp
            omega
          omega
        exact ih ⟨p2, q, rfl, hs⟩ hlen2
      · have hsome := findInLine_complete (q := q) hs p hnl
        rw [← heq, hfi] at hsome
        simp at hsome

/-! ### Behaviour of `extract_version` -/

/-- Soundness: an extracted version occurs as a quoted token in the wrapped
input and has the version shape (in particular it is non-empty). -/
theorem extract_version_sound {s : String} {v : String}
    (h : extract_version s = .ok v) :
    quotedTokenIn (wrapChars s) v.data ∧ versionShape v.data ∧ v.data ≠ [] := by
  unfold extract_version at h
  cases hft : findTok (wrapChars s) with
  | none => rw [hft] at h; exact absurd h (by simp)
  | some t =>
    rw [hft] at h
    injection h with h'
    have hv : v.data = t := by rw [← h']
    obtain ⟨p, q, heq, hs⟩ := findTokF_sound _ hft
    refine ⟨⟨p, q, by rw [hv]; exact heq, by rw [hv]; exact hs⟩, by rw [hv]; exact hs, ?_⟩
    rw [hv]
    obtain ⟨a, b, c, hmeq, ha, _, _, _, _⟩ := hs
    cases a with
    | nil => exact absurd rfl ha
    | cons x xs => rw [hmeq]; simp

/-- Completeness: if the wrapped input contains a quoted version token, the
extraction succeeds. -/
theorem extract_version_complete {s : String} (h : containsToken (wrapChars s)) :
    ∃ v, extract_version s = .ok v := by
  obtain ⟨m, hm⟩ := h
  have := findTokF_complete (wrapChars s).length hm (Nat.le_refl _)
  unfold extract_version findTok
  cases hft : findTokF (wrapChars s).length (wrapChars s) with
  | none => rw [hft] at this; exact absurd this (by simp)
  | some t => exact ⟨String.mk t, rfl⟩

/-- If the scan fails, the wrapped input contains no quoted version token. -/
theorem not_containsToken_of_findTok_none {cs : List Char}
    (h : findTok cs = none) : ¬ containsToken cs := by
  intro hc
  obtain ⟨m, hm⟩ := hc
  have := findTokF_complete cs.length hm (Nat.le_refl _)
  unfold findTok at h
  rw [h] at this
  simp at this

/-- The extraction fails exactly like the source does when no token exists. -/
theorem extract_version_error_of_not_contains {s : String}
    (h : ¬ containsToken (wrapChars s)) :
    extract_version s = .error .NoJavaVersionStringFound := by
  unfold extract_version
  cases hft : findTok (wrapChars s) with
  | none => rfl
  | some t =>
    exact absurd ⟨t, findTokF_sound _ hft⟩ h

/-! ### Extraction is the identity on already-normalized versions -/

theorem verC_ne_quote_nl {x : Char} (h : isVerC x = true) :
    ¬(x = '"') ∧ ¬(x = '\n') := by
  constructor
  · intro e; subst e; exact absurd h (by decide)
  · intro e; subst e; exact absurd h (by decide)

theorem shape_all_verC {m : List Char} (hm : versionShape m) :
    ∀ x ∈ m, isVerC x = true := by
  obtain ⟨a, b, c, heq, _, _, hada, hbda, hcall⟩ := hm
  subst heq
  intro x hx
  rcases List.mem_append.mp hx with hxa | hx'
  · have hd := (List.all_eq_true.mp hada) x hxa
    simp only [isVerC, isDigitC] at hd ⊢
    rw [hd]
    rfl
  · cases hx' with
    | head => decide
    | tail _ hx'' =>
      rcases List.mem_append.mp hx'' with hxb | hxc
      · have hd := (List.all_eq_true.mp hbda) x hxb
        simp only [isVerC, isDigitC] at hd ⊢
        rw [hd]
        rfl
      · exact (List.all_eq_true.mp hcall) x hxc

/-- In a run of version characters followed by a final quote, the line scan
finds nothing: the only quote position is the last one, and a parse cannot
start at the end of the input. -/
theorem findInLine_verchars : ∀ {ds : List Char},
    (∀ x ∈ ds, ¬(x = '"') ∧ ¬(x = '\n')) → findInLine (ds ++ ['"']) = none := by
  intro ds
  induction ds with
  | nil =>
    intro _
    show findInLine ('"' :: []) = none
    unfold findInLine
    rw [if_neg (by decide)]
    have h0 : findInLine [] = none := rfl
    rw [h0]
    have hp : parseTok [] = none := rfl
    simp [hp]
  | cons x xs ih =>
    intro hds
    have hx := hds x (List.mem_cons_self _ _)
    have hxs : ∀ y ∈ xs, ¬(y = '"') ∧ ¬(y = '\n') :=
      fun y hy => hds y (List.mem_cons_of_mem _ hy)
    rw [List.cons_append]
    unfold findInLine
    rw [if_neg hx.2, ih hxs]
    simp [hx.1]

/-- Extracting from a string that is already exactly a version token returns
that string unchanged. -/
theorem extract_version_of_shape {v : String} (hv : versionShape v.data) :
    extract_version v = .ok v := by
  have hchars : ∀ x ∈ v.data, ¬(x = '"') ∧ ¬(x = '\n') :=
    fun x hx => verC_ne_quote_nl (shape_all_verC hv x hx)
  have hinner : findInLine (v.data ++ ['"']) = none := findInLine_verchars hchars
  have hparse : parseTok (v.data ++ '"' :: []) = some (v.data, []) :=
    parseTok_complete hv
  have hfl : findInLine (wrapChars v) = some v.data := by
    unfold wrapChars findInLine
    rw [if_neg (by decide), hinner]
    simp [hparse]
  have hlen : ∃ k, (wrapChars v).length = k + 1 := ⟨(v.data ++ ['"']).length, rfl⟩
  obtain ⟨k, hk⟩ := hlen
  unfold extract_version findTok
  rw [hk]
  unfold findTokF
  rw [hfl]

/-! ### Lemmas about the directory walk -/

theorem length_le_of_mem_walkRelD : ∀ (d : Nat) (t : FsNode) {rel : List String},
    rel ∈ walkRelD d t → rel.length ≤ d := by
  intro d
  induction d with
  | zero =>
    intro t rel h
    simp only [walkRelD, List.mem_singleton] at h
    subst h
    simp
  | succ n ih =>
    intro t rel h
    cases t with
    | file =>
      simp only [walkRelD, List.mem_singleton] at h
      subst h
      simp
    | dir es =>
      simp only [walkRelD, List.mem_cons] at h
      rcases h with h | h
      · subst h; simp
      · rw [List.mem_flatMap] at h
        obtain ⟨e, _, hmem⟩ := h
        rw [List.mem_map] at hmem
        obtain ⟨rel', hrel', heq⟩ := hmem
        subst heq
        simpa using Nat.succ_le_succ (ih e.2 hrel')

theorem lookupEntry_mem : ∀ {es : List (String × FsNode)} {n : String} {c : FsNode},
    lookupEntry es n = some c → (n, c) ∈ es := by
  intro es
  induction es with
  | nil => intro n c h; simp [lookupEntry] at h
  | cons e rest ih =>
    intro n c h
    obtain ⟨m, t⟩ := e
    unfold lookupEntry at h
    by_cases hm : m = n
    · rw [if_pos hm] at h
      injection h with h'
      subst hm h'
      exact List.mem_cons_self _ _
    · rw [if_neg hm] at h
      exact List.mem_cons_of_mem _ (ih h)

theorem mem_walkRelD_of_lookup : ∀ {rel : List String} (t : FsNode) (d : Nat),
    (lookupNode t rel).isSome = true → rel.length ≤ d → rel ∈ walkRelD d t := by
  intro rel
  induction rel with
  | nil =>
    intro t d _ _
    cases d with
    | zero => simp [walkRelD]
    | succ n =>
      cases t with
      | file => simp [walkRelD]
      | dir es => simp [walkRelD]
  | cons n rest ih =>
    intro t d hl hlen
    cases t with
    | file => simp [lookupNode] at hl
    | dir es =>
      cases d with
      | zero => simp at hlen
      | succ k =>
        unfold lookupNode at hl
        cases hle : lookupEntry es n with
        | none => rw [hle] at hl; simp at hl
        | some c =>
          rw [hle] at hl
          have hmem := lookupEntry_mem hle
          have hlen' : rest.length ≤ k := by
            simp only [List.length_cons] at hlen
            omega
          have hrest : rest ∈ walkRelD k c := ih c k hl hlen'
          simp only [walkRelD, List.mem_cons]
          right
          rw [List.mem_flatMap]
          exact ⟨(n, c), hmem, by rw [List.mem_map]; exact ⟨rest, hrest, rfl⟩⟩

theorem filterMap_ne_nil_iff {α β : Type} {l : List α} {f : α → Option β} :
    l.filterMap f ≠ [] ↔ ∃ a ∈ l, (f a).isSome = true := by
  induction l with
  | nil => simp
  | cons x xs ih =>
    cases hfx : f x with
    | none =>
      rw [List.filterMap_cons_none hfx]
      rw [ih]
      constructor
      · rintro ⟨a, ha, hs⟩
        exact ⟨a, List.mem_cons_of_mem _ ha, hs⟩
      · rintro ⟨a, ha, hs⟩
        cases ha with
        | head => rw [hfx] at hs; exact absurd hs (by simp)
        | tail _ h' => exact ⟨a, h', hs⟩
    | some b =>
      rw [List.filterMap_cons_some hfx]
      constructor
      · intro _
        exact ⟨x, List.mem_cons_self _ _, by rw [hfx]; rfl⟩
      · intro _
        simp

/-! ### Claim C6 -/

/-- C6: two records compare equal exactly when their `os` tags and
`executablePath`s are both equal; `version_string` plays no role, so records
differing only in the version are equal, while changing only the os or only
the path makes them unequal. -/
theorem record_equality_os_path :
    (∀ a b : JavaRuntime, jeq a b = true ↔ (a.os = b.os ∧ a.path = b.path))
    ∧ jeq ⟨"linux", ⟨true, ["jdk", "bin", "java"]⟩, "21.0.3"⟩
        ⟨"linux", ⟨true, ["jdk", "bin", "java"]⟩, "17.0.1"⟩ = true
    ∧ jeq ⟨"linux", ⟨true, ["jdk", "bin", "java"]⟩, "21.0.3"⟩
        ⟨"windows", ⟨true, ["jdk", "bin", "java"]⟩, "21.0.3"⟩ = false
    ∧ jeq ⟨"linux", ⟨true, ["jdk", "bin", "java"]⟩, "21.0.3"⟩
        ⟨"linux", ⟨true, ["jdk", "bin", "java2"]⟩, "21.0.3"⟩ = false := by
  refine ⟨?_, by decide, by decide, by decide⟩
  intro a b
  simp [jeq]

/-! ### Claim C7 -/

/-- C7: whenever `update` fails — classifier rejection, spawn failure,
failing exit status, or unparsable output — the record is left completely
unchanged; only a fully successful probe overwrites the version. -/
theorem update_failure_unchanged : ∀ (sys : Sys) (rt rt' : JavaRuntime)
    (e : ErrKind), update sys rt = (rt', some e) → rt' = rt := by
  intro sys rt rt' e h
  unfold update at h
  split at h
  · simp only [Prod.mk.injEq] at h
    exact h.1.symm
  · split at h
    · simp only [Prod.mk.injEq] at h
      exact h.1.symm
    · split at h
      · split at h
        · simp at h
        · simp only [Prod.mk.injEq] at h
          exact h.1.symm
      · simp only [Prod.mk.injEq] at h
        exact h.1.symm

/-- Witness for C7 at a concrete failing update. -/
theorem update_failure_unchanged_witness :
    (⟨"linux", ⟨true, ["java"]⟩, "21.0.3"⟩ : JavaRuntime)
      = ⟨"linux", ⟨true, ["java"]⟩, "21.0.3"⟩ :=
  update_failure_unchanged sysEmpty ⟨"linux", ⟨true, ["java"]⟩, "21.0.3"⟩
    ⟨"linux", ⟨true, ["java"]⟩, "21.0.3"⟩
    (.LooksNotLikeJavaExecutableFile ⟨true, ["java"]⟩) (by decide)

/-! ### Claim C8 -/

/-- C8: a path the classifier rejects makes the probe fail immediately with
the `LooksNotLikeJavaExecutableFile` (NotAnExecutable) error, leaving the
record untouched, and the outcome is independent of the subprocess oracle —
no process is spawned for such a path. -/
theorem classifier_reject_no_spawn : ∀ (sys : Sys) (rt : JavaRuntime),
    looks_like_java_executable_file sys rt.path = false →
    update sys rt = (rt, some (.LooksNotLikeJavaExecutableFile rt.path))
    ∧ ∀ f, update { sys with runJava := f } rt = update sys rt := by
  intro sys rt h
  have h1 : update sys rt = (rt, some (.LooksNotLikeJavaExecutableFile rt.path)) := by
    unfold update
    rw [h]
    rfl
  refine ⟨h1, ?_⟩
  intro f
  have h2 : looks_like_java_executable_file { sys with runJava := f } rt.path
      = false := h
  have h3 : update { sys with runJava := f } rt
      = (rt, some (.LooksNotLikeJavaExecutableFile rt.path)) := by
    unfold update
    rw [h2]
    rfl
  rw [h3, h1]

/-- Witness for C8 at a concrete rejected path. -/
theorem classifier_reject_no_spawn_witness :
    update sysEmpty ⟨"linux", ⟨true, ["java"]⟩, "1.2"⟩
      = (⟨"linux", ⟨true, ["java"]⟩, "1.2"⟩,
         some (.LooksNotLikeJavaExecutableFile ⟨true, ["java"]⟩)) :=
  (classifier_reject_no_spawn sysEmpty ⟨"linux", ⟨true, ["java"]⟩, "1.2"⟩
    (by decide)).1

/-! ### Claim C4 -/

/-- C4: on any input whose (quote-wrapped) text contains no double-quoted
token of at least `MAJOR.MINOR` shape, `extract_version` fails with the
`NoJavaVersionStringFound` (NoVersionFound) error. -/
theorem extract_version_no_token_fails : ∀ (s : String),
    ¬ containsToken (wrapChars s) →
    extract_version s = .error .NoJavaVersionStringFound :=
  fun _ h => extract_version_error_of_not_contains h

/-- Witness for C4: a single bare integer with no period fails. -/
theorem extract_version_no_token_fails_witness :
    extract_version "17" = .error .NoJavaVersionStringFound :=
  extract_version_no_token_fails "17"
    (not_containsToken_of_findTok_none (by decide))

/-! ### Claim C5 -/

theorem extract_ok_version_prop {s v : String} (h : extract_version s = .ok v) :
    v ≠ "" ∧ versionShape v.data := by
  obtain ⟨_, hs, hne⟩ := extract_version_sound h
  refine ⟨?_, hs⟩
  intro e
  apply hne
  rw [e]

/-- C5: every successfully constructed record — by `new`, by
`from_executable`, or after a successful `update` — carries a non-empty,
grammar-conformant `version_string`; and `new` fails with the
`NoJavaVersionStringFound` error when no conformant version can be extracted
from its version argument. -/
theorem record_version_invariant :
    (∀ (os : String) (p : FPath) (vs : String) (rt : JavaRuntime),
        JavaRuntime.new os p vs = .ok rt →
        rt.version_string ≠ "" ∧ versionShape rt.version_string.data)
    ∧ (∀ (sys : Sys) (p : FPath) (rt : JavaRuntime),
        from_executable sys p = .ok rt →
        rt.version_string ≠ "" ∧ versionShape rt.version_string.data)
    ∧ (∀ (sys : Sys) (rt rt' : JavaRuntime),
        update sys rt = (rt', none) →
        rt'.version_string ≠ "" ∧ versionShape rt'.version_string.data)
    ∧ (∀ (os : String) (p : FPath) (vs : String),
        ¬ containsToken (wrapChars vs) →
        JavaRuntime.new os p vs = .error .NoJavaVersionStringFound) := by
  have hupd : ∀ (sys : Sys) (rt rt' : JavaRuntime),
      update sys rt = (rt', none) →
      rt'.version_string ≠ "" ∧ versionShape rt'.version_string.data := by
    intro sys rt rt' h
    unfold update at h
    split at h
    · simp at h
    · split at h
      · simp at h
      · split at h
        · split at h
          · rename_i v hex
            simp only [Prod.mk.injEq] at h
            have hrt : rt' = { rt with version_string := v } := h.1.symm
            subst hrt
            exact extract_ok_version_prop hex
          · simp at h
        · simp at h
  have hnew : ∀ (os : String) (p : FPath) (vs : String) (rt : JavaRuntime),
      JavaRuntime.new os p vs = .ok rt →
      rt.version_string ≠ "" ∧ versionShape rt.version_string.data := by
    intro os p vs rt h
    unfold JavaRuntime.new at h
    split at h
    · rename_i v hex
      injection h with h'
      subst h'
      exact extract_ok_version_prop hex
    · exact absurd h (by simp)
  refine ⟨hnew, ?_, hupd, ?_⟩
  · intro sys p rt h
    unfold from_executable at h
    split at h
    · rename_i rt0 hup
      injection h with h'
      subst h'
      exact hupd sys _ rt0 hup
    · exact absurd h (by simp)
  · intro os p vs h
    unfold JavaRuntime.new
    rw [extract_version_error_of_not_contains h]

/-- Witness for C5 at a concrete manual construction. -/
theorem record_version_invariant_witness :
    (⟨"linux", ⟨true, []⟩, "21.0.3"⟩ : JavaRuntime).version_string ≠ ""
    ∧ versionShape
        (⟨"linux", ⟨true, []⟩, "21.0.3"⟩ : JavaRuntime).version_string.data :=
  record_version_invariant.1 "linux" ⟨true, []⟩ "21.0.3"
    ⟨"linux", ⟨true, []⟩, "21.0.3"⟩ rfl

/-! ### Claim C10 -/

/-- C10: when the current working directory can be determined (hence is an
absolute path), `to_absolute` succeeds on any record satisfying the version
invariant and returns a record whose path is `self.path.join(cwd)` — which,
the cwd being absolute, is the cwd itself, discarding the original path —
with `os` and `version_string` unchanged. -/
theorem to_absolute_joins_cwd : ∀ (rt : JavaRuntime) (c : FPath),
    c.abs = true → versionShape rt.version_string.data →
    JavaRuntime.to_absolute (some c) rt = .ok ⟨rt.os, c, rt.version_string⟩
    ∧ rt.path.join c = c := by
  intro rt c habs hshape
  have hjoin : rt.path.join c = c := by
    unfold FPath.join
    rw [habs]
    rfl
  refine ⟨?_, hjoin⟩
  show JavaRuntime.new rt.os (rt.path.join c) rt.version_string
    = .ok ⟨rt.os, c, rt.version_string⟩
  rw [hjoin]
  unfold JavaRuntime.new
  rw [extract_version_of_shape hshape]

/-- Witness for C10 at a concrete record and cwd. -/
theorem to_absolute_joins_cwd_witness :
    JavaRuntime.to_absolute (some ⟨true, ["home"]⟩)
        ⟨"linux", ⟨false, ["r", "bin", "java"]⟩, "21.0.3"⟩
      = .ok ⟨"linux", ⟨true, ["home"]⟩, "21.0.3"⟩
    ∧ (⟨false, ["r", "bin", "java"]⟩ : FPath).join ⟨true, ["home"]⟩
      = ⟨true, ["home"]⟩ :=
  to_absolute_joins_cwd ⟨"linux", ⟨false, ["r", "bin", "java"]⟩, "21.0.3"⟩
    ⟨true, ["home"]⟩ rfl
    ⟨['2', '1'], ['0'], ['.', '3'], rfl, by decide, by decide, by decide,
      by decide, by decide⟩

/-! ### Claim C3 -/

/-- C3 counterexample: with two quoted tokens on one line, the greedy
leading `.*` of the pattern makes the capture take the *last* token, not the
first one, refuting the claim as stated. -/
theorem extract_version_not_first_token :
    extract_version "x \"1.2\" y \"3.4\"" = .ok "3.4"
    ∧ ¬(extract_version "x \"1.2\" y \"3.4\"" = .ok "1.2") := by
  refine ⟨rfl, ?_⟩
  intro h
  rw [show extract_version "x \"1.2\" y \"3.4\"" = .ok "3.4" from rfl] at h
  injection h with h'
  exact absurd h' (by decide)

set_option maxRecDepth 4000 in
/-- C3 amended: on every input containing a double-quoted version token
(after wrapping), `extract_version` succeeds and the returned string is one
of the quoted tokens of the wrapped input with its quotes stripped — the one
selected by the greedy leftmost-first match, i.e. the last token of the
earliest line containing one, rather than the first; in particular a bare
token, a pre-quoted token, and the token of multi-line diagnostic output are
all extracted. -/
theorem extract_version_amended :
    (∀ s : String, containsToken (wrapChars s) →
      ∃ v : String, extract_version s = .ok v)
    ∧ (∀ (s v : String), extract_version s = .ok v →
      quotedTokenIn (wrapChars s) v.data)
    ∧ extract_version "17.0.4.1" = .ok "17.0.4.1"
    ∧ extract_version "\"17.0.4.1\"" = .ok "17.0.4.1"
    ∧ extract_version "java version \"17.0.4.1\" 2022-08-18 LTS\nJava(TM) SE Runtime Environment (build 17.0.4.1+1-LTS-2)\nJava HotSpot(TM) 64-Bit Server VM (build 17.0.4.1+1-LTS-2, mixed mode, sharing)" = .ok "17.0.4.1"
    ∧ extract_version "x \"1.2\" y \"3.4\"" = .ok "3.4" := by
  refine ⟨?_, ?_, rfl, rfl, rfl, rfl⟩
  · intro s h
    exact extract_version_complete h
  · intro s v h
    exact (extract_version_sound h).1

/-- Witness for C3 at a concrete input containing a token. -/
theorem extract_version_amended_witness :
    ∃ v : String, extract_version "1.2" = .ok v :=
  extract_version_amended.1 "1.2"
    ⟨['1', '.', '2'], [], [], rfl,
      ⟨['1'], ['2'], [], rfl, by decide, by decide, by decide, by decide,
        by decide⟩⟩

/-! ### Claim C1 -/


set_option maxRecDepth 4000 in
/-- C1: pointing `detect_java` at a regular file that is itself a java
launcher (its direct probe succeeds) yields nothing: the `is_file` branch of
`gather_java` feeds the file to `detect_java_bin_dir`, which probes
`path.join("java")` — a child of a file, which never exists — instead of the
file itself, so the branch can never fire and the walk finds nothing either. -/
theorem file_root_never_detected :
    is_file sysC1 ⟨true, ["a", "bin", "java"]⟩ = true
    ∧ from_executable sysC1 ⟨true, ["a", "bin", "java"]⟩
      = .ok ⟨"linux", ⟨true, ["a", "bin", "java"]⟩, "17.0.4.1"⟩
    ∧ detect_java sysC1 ⟨true, ["a", "bin", "java"]⟩ 5 = [] := by
  refine ⟨rfl, rfl, rfl⟩

/-! ### Claim C9 -/



set_option maxRecDepth 4000 in
/-- C9: the environment scan splits `PATH` on the literal three-character
string `":|;"` instead of the platform's path-list separator, so a normal
colon-separated `PATH` stays in one piece, the nonexistent path
`/jdk/bin:/b` is walked, and the runtime that splitting on `':'` would find
(as `detect_java_in_paths` on the two entries shows) is missed. -/
theorem path_split_literal_eval :
    (splitPathVar "/jdk/bin:/b".data []).map String.mk = ["/jdk/bin:/b"]
    ∧ detect_java_in_environments sysC9 envC9 = []
    ∧ detect_java_in_paths sysC9 [parsePath "/jdk/bin", parsePath "/b"] 1
      = [⟨"linux", ⟨true, ["jdk", "bin", "java"]⟩, "21.0.3"⟩] := by
  refine ⟨rfl, rfl, rfl⟩

/-! ### Claim C2 -/


set_option maxRecDepth 4000 in
/-- C2 counterexample: the only qualifying file lies at depth `d = 2` below
the root, yet `detect_java` with `max_depth = 1 < d` already returns the
runtime (and even `max_depth = 1` suffices because detection happens when
the walk visits the parent `bin` directory at depth `d - 1`), refuting
"omits it whenever maxDepth < d". -/
theorem detect_depth_counterexample :
    detect_java sysC2 ⟨true, []⟩ 1
      = [⟨"linux", ⟨true, ["bin", "java"]⟩, "1.8.0_333"⟩] := by
  rfl

/-- C2 amended: for a directory root whose only qualifying java executable
file lies at depth `d ≥ 1` below the root (its parent `bin` directory, at
depth `d - 1`, being the unique walk entry whose `detect_java_bin_dir` probe
succeeds), `detect_java` returns that runtime exactly when
`maxDepth ≥ d - 1`, and omits it exactly when `maxDepth < d - 1`: every
visited entry is probed as a candidate `bin` directory (`entry/java`), so a
file at depth `d` is found via its parent at depth `d - 1`. -/
theorem detect_depth_off_by_one (sys : Sys) (r : FPath) (t0 : FsNode)
    (bs : List String) (d m : Nat)
    (habs : r.abs = true)
    (hd : 1 ≤ d)
    (hlen : bs.length = d - 1)
    (hnotfile : is_file sys r = false)
    (ht : lookupNode sys.root r.comps = some t0)
    (hb : (lookupNode t0 bs).isSome = true)
    (huniq : ∀ q ∈ walkEntries sys r m,
      ((detect_java_bin_dir sys q).isSome = true ↔ q = ⟨true, r.comps ++ bs⟩)) :
    detect_java sys r m ≠ [] ↔ d - 1 ≤ m := by
  have hres : resolve sys r = r.comps := by
    unfold resolve
    rw [habs]
    rfl
  have hentries : walkEntries sys r m
      = (walkRelD m t0).map (fun rel => ⟨r.abs, r.comps ++ rel⟩) := by
    unfold walkEntries
    rw [hres, ht]
  have hdet : detect_java sys r m
      = (walkEntries sys r m).filterMap (detect_java_bin_dir sys) := by
    unfold detect_java gather_java
    rw [hnotfile]
    simp
  rw [hdet, filterMap_ne_nil_iff]
  constructor
  · rintro ⟨a, ha, hsome⟩
    have haeq := (huniq a ha).mp hsome
    subst haeq
    rw [hentries, List.mem_map] at ha
    obtain ⟨rel, hrel, heq⟩ := ha
    have hcomps : r.comps ++ rel = r.comps ++ bs := congrArg FPath.comps heq
    have hrelbs : rel = bs := by
      have := List.append_cancel_left hcomps
      exact this
    subst hrelbs
    have hle := length_le_of_mem_walkRelD m t0 hrel
    omega
  · intro hm
    have hrelmem : bs ∈ walkRelD m t0 :=
      mem_walkRelD_of_lookup t0 m hb (by omega)
    have hmem : (⟨true, r.comps ++ bs⟩ : FPath) ∈ walkEntries sys r m := by
      rw [hentries, List.mem_map]
      exact ⟨bs, hrelmem, by rw [habs]⟩
    exact ⟨_, hmem, (huniq _ hmem).mpr rfl⟩

set_option maxRecDepth 4000 in
/-- Witness for C2 amended, at the concrete tree with the qualifying file at
depth 2: found at `maxDepth = 1 = d - 1`, omitted at `maxDepth = 0 < d - 1`. -/
theorem detect_depth_off_by_one_witness :
    (detect_java sysC2 ⟨true, []⟩ 1 ≠ [] ↔ 1 ≤ 1)
    ∧ (detect_java sysC2 ⟨true, []⟩ 0 ≠ [] ↔ 1 ≤ 0) :=
  ⟨detect_depth_off_by_one sysC2 ⟨true, []⟩ (.dir [("bin", .dir [("java", .file)])])
      ["bin"] 2 1 rfl (by decide) rfl rfl rfl rfl (by decide),
   detect_depth_off_by_one sysC2 ⟨true, []⟩ (.dir [("bin", .dir [("java", .file)])])
      ["bin"] 2 0 rfl (by decide) rfl rfl rfl rfl (by decide)⟩
